import Mathlib

/-!
# aeigo: the blocklist pipeline of `main.go`

A shallow embedding of the pure core of `main.go`:
`downloadAndMergeSources`, `extractDomains`, `buildFinalHostsFile` and
`countBlockedWebsites`, with the Go library functions they call
(`strings.Split`, `strings.TrimSpace`, `strings.HasPrefix`, `sort.Strings`).

Modelling conventions.

* A Go `string` is modelled as the list of its Unicode code points (`Str`),
  that is, as valid UTF-8 text. Go compares strings byte by byte; on valid
  UTF-8 this is the comparison of the code point sequences used here.
* The effects of the program are made parameters: the body returned for a
  URL (`downloadFile`), the result of `ioutil.ReadFile(inputHosts)` (an
  `Option Str`, `none` for a read error) and the text of
  `time.Now().Format(time.RFC3339)`.
* The Go map `domainsSet` is modelled by the list of its keys, without
  repetition. The order in which `range` visits a map is unspecified in Go:
  it is the parameter `rangeOrder` of `extractDomainsVia`.
* `counter` of `countBlockedWebsites` is a `Nat`: it is bounded by the length
  of the content, so the Go `int` cannot overflow.
* `readSourcesFromFile` and `writeToFile` only move text between files and
  the functions above; the lists of sources and the content written are the
  arguments and results of the functions modelled here.
-/

namespace Aeigo

/-- A Go string, as the list of its code points. -/
abbrev Str := List Char

/-! ## Constants -/

/-- The constant `blockIP` of `main.go`. -/
def blockIP : Str := "0.0.0.0".toList

/-- The placeholder written when `inputHosts` cannot be read. -/
def hostsNotFound : Str := "# Original user hosts not found or couldn't be read\n".toList

/-- The second line of the generated header, with the blank line after it. -/
def dontWriteBelow : Str :=
  "# Don't write below this line. It will be lost if you run aeigo again.\n\n".toList

/-! ## Go library functions -/

/-- The predicate `unicode.IsSpace`: the code points with the Unicode
White_Space property. -/
def isSpace (c : Char) : Bool :=
  let n := c.toNat
  n == 0x09 || n == 0x0A || n == 0x0B || n == 0x0C || n == 0x0D || n == 0x20 ||
  n == 0x85 || n == 0xA0 || n == 0x1680 || (0x2000 ≤ n && n ≤ 0x200A) ||
  n == 0x2028 || n == 0x2029 || n == 0x202F || n == 0x205F || n == 0x3000

/-- The function `strings.TrimSpace`: the string without its leading and
trailing white space. -/
def TrimSpace (s : Str) : Str :=
  (s.dropWhile isSpace).rdropWhile isSpace

/-- The function `strings.HasPrefix`. -/
def HasPrefix (s pre : Str) : Bool :=
  pre.isPrefixOf s

/-- The function `strings.Split(s, sep)` for a separator of one character:
the pieces of `s` between the occurrences of `sep`. A string with `n`
occurrences has `n + 1` pieces; the empty string has the one piece `""`. -/
def Split (s : Str) (sep : Char) : List Str :=
  match s with
  | [] => [[]]
  | c :: cs =>
    if c = sep then [] :: Split cs sep
    else
      match Split cs sep with
      | [] => [[c]]
      | piece :: pieces => (c :: piece) :: pieces

/-- Go's `<` on strings: lexicographic comparison of the code points. -/
def strLess : Str → Str → Bool
  | [], [] => false
  | [], _ :: _ => true
  | _ :: _, [] => false
  | a :: as, b :: bs =>
    if a.toNat < b.toNat then true
    else if b.toNat < a.toNat then false
    else strLess as bs

/-- Go's `<=` on strings. -/
def strLe (a b : Str) : Prop := strLess b a = false

instance strLe_decidable : DecidableRel strLe := fun a b =>
  inferInstanceAs (Decidable (strLess b a = false))

/-- The function `sort.Strings`: the strings in increasing order. -/
def sortStrings (l : List Str) : List Str :=
  List.insertionSort strLe l

/-! ## The program -/

/-- The loop of `downloadAndMergeSources`: the bodies of the sources, written
one after the other into `mergedDomains`. -/
def downloadAndMergeSources (downloadFile : Str → Str) (sources : List Str) : Str :=
  sources.foldl (fun mergedDomains source => mergedDomains ++ downloadFile source) []

/-- The statement `domainsSet[line] = true` on the keys of the map. -/
def setInsert (domainsSet : List Str) (line : Str) : List Str :=
  if line ∈ domainsSet then domainsSet else domainsSet ++ [line]

/-- The first loop of `extractDomains`: the keys of `domainsSet` once every
line has been visited. -/
def domainsSet (domains : Str) : List Str :=
  (Split domains '\n').foldl
    (fun set line =>
      let line := TrimSpace line
      if 0 < line.length && !HasPrefix line "#".toList then setInsert set line else set)
    []

/-- The function `extractDomains`, where `range domainsSet` visits the keys in
the order `rangeOrder` gives them. -/
def extractDomainsVia (rangeOrder : List Str → List Str) (domains : Str) : List Str :=
  sortStrings
    ((rangeOrder (domainsSet domains)).foldl (fun extracted domain => extracted ++ [domain]) [])

/-- The function `extractDomains`, with the keys visited in the order of their
insertion. -/
def extractDomains (domains : Str) : List Str :=
  extractDomainsVia id domains

/-- The function `buildFinalHostsFile`. `userHosts` is the result of
`ioutil.ReadFile(inputHosts)`, `now` the text of
`time.Now().Format(time.RFC3339)`. -/
def buildFinalHostsFile (userHosts : Option Str) (now : Str)
    (blacklist : List Str) (_whitelist : List Str) : Str :=
  let finalHosts : Str :=
    match userHosts with
    | none => hostsNotFound
    | some userHostsContent => userHostsContent
  let finalHosts := finalHosts ++ ("\n# Ad blocking hosts generated ".toList ++ now ++ "\n".toList)
  let finalHosts := finalHosts ++ dontWriteBelow
  blacklist.foldl
    (fun finalHosts domain => finalHosts ++ (blockIP ++ " ".toList ++ domain ++ "\n".toList))
    finalHosts

/-- The function `countBlockedWebsites`. -/
def countBlockedWebsites (hostsContent : Str) : Nat :=
  (Split hostsContent '\n').foldl
    (fun counter line => if HasPrefix line blockIP then counter + 1 else counter)
    0

/-- The test of the first loop of `extractDomains` on a trimmed line. -/
def keeps (line : Str) : Bool :=
  0 < line.length && !HasPrefix line "#".toList

/-! ## The parts of the final content -/

/-- What `buildFinalHostsFile` writes first: the content of `inputHosts`, or the
placeholder when it could not be read. -/
def userPart (userHosts : Option Str) : Str :=
  match userHosts with
  | none => hostsNotFound
  | some userHostsContent => userHostsContent

/-- The first line of the generated header, without the time. -/
def generatedTitle : Str := "# Ad blocking hosts generated ".toList

/-- The second line of the generated header, without its newline. -/
def dontWriteLine : Str :=
  "# Don't write below this line. It will be lost if you run aeigo again.".toList

/-- The header `buildFinalHostsFile` writes after the user part. -/
def generatedHeader (now : Str) : Str :=
  ("\n# Ad blocking hosts generated ".toList ++ now ++ "\n".toList) ++ dontWriteBelow

/-- The text the last loop of `buildFinalHostsFile` writes. -/
def blockLines (blacklist : List Str) : Str :=
  (blacklist.map (fun domain => blockIP ++ " ".toList ++ domain ++ "\n".toList)).flatten

/-! ## Checks on concrete inputs -/

example : Split "a\n\nb\n".toList '\n' = ["a".toList, [], "b".toList, []] := by decide
example : Split [] '\n' = [[]] := by decide
example : TrimSpace " \ta b\r ".toList = "a b".toList := by decide
example : extractDomains "b\n#c\n\n a\nb\n".toList = ["a".toList, "b".toList] := by decide
example : countBlockedWebsites "0.0.0.0 a\nx\n0.0.0.0".toList = 2 := by decide

/-! ## Lemmas on `Split` -/

theorem Split_ne_nil (s : Str) (sep : Char) : Split s sep ≠ [] := by
  induction s with
  | nil => simp [Split]
  | cons c cs ih =>
    unfold Split
    split_ifs
    · simp
    · split <;> simp

theorem Split_cons_sep (s : Str) (sep : Char) : Split (sep :: s) sep = [] :: Split s sep := by
  simp [Split]

theorem Split_cons_of_ne (c : Char) (cs : Str) (sep : Char) (p : Str) (ps : List Str)
    (h : ¬ c = sep) (hs : Split cs sep = p :: ps) : Split (c :: cs) sep = (c :: p) :: ps := by
  simp [Split, h, hs]

theorem Split_append_sep (a b : Str) (sep : Char) :
    Split (a ++ sep :: b) sep = Split a sep ++ Split b sep := by
  induction a with
  | nil => simp [Split]
  | cons c cs ih =>
    by_cases h : c = sep
    · simp [Split, h, ← ih]
    · cases hs : Split cs sep with
      | nil => exact absurd hs (Split_ne_nil cs sep)
      | cons p ps =>
        rw [hs] at ih
        rw [List.cons_append, Split_cons_of_ne c _ sep p (ps ++ Split b sep) h ih,
          Split_cons_of_ne c cs sep p ps h hs]
        simp

theorem Split_of_not_mem (s : Str) (sep : Char) (h : sep ∉ s) : Split s sep = [s] := by
  induction s with
  | nil => simp [Split]
  | cons c cs ih =>
    have hc : ¬ c = sep := fun e => h (by simp [e])
    have hcs : sep ∉ cs := fun e => h (by simp [e])
    simp [Split, hc, ih hcs]

theorem not_mem_of_mem_Split (s : Str) (sep : Char) (p : Str) (hp : p ∈ Split s sep) :
    sep ∉ p := by
  induction s generalizing p with
  | nil => simp [Split] at hp; simp [hp]
  | cons c cs ih =>
    by_cases h : c = sep
    · simp only [Split, h, if_true, List.mem_cons] at hp
      rcases hp with rfl | hp
      · simp
      · exact ih p hp
    · simp only [Split, h, if_false] at hp
      cases hs : Split cs sep with
      | nil => exact absurd hs (Split_ne_nil cs sep)
      | cons q qs =>
        rw [hs] at hp ih
        simp only [List.mem_cons] at hp
        rcases hp with rfl | hp
        · have := ih q (by simp)
          simp only [List.mem_cons, not_or]
          exact ⟨fun e => h e.symm, this⟩
        · exact ih p (by simp [hp])

/-! ## Go's string order is a strict total order -/

theorem toNat_injective (a b : Char) (h : a.toNat = b.toNat) : a = b := by
  apply Char.ext
  apply UInt32.ext
  exact h

theorem strLess_irrefl (a : Str) : strLess a a = false := by
  induction a with
  | nil => rfl
  | cons c cs ih => simp [strLess, ih]

theorem strLess_asymm (a b : Str) (h : strLess a b = true) : strLess b a = false := by
  induction a generalizing b with
  | nil => cases b <;> simp [strLess] at h ⊢
  | cons c cs ih =>
    cases b with
    | nil => simp [strLess] at h
    | cons d ds =>
      simp only [strLess] at h ⊢
      split_ifs at h ⊢ with h1 h2 h2
      · omega
      · rfl
      · exact ih ds h

theorem eq_of_not_strLess (a b : Str) (h1 : strLess a b = false) (h2 : strLess b a = false) :
    a = b := by
  induction a generalizing b with
  | nil => cases b <;> simp [strLess] at h1 ⊢
  | cons c cs ih =>
    cases b with
    | nil => simp [strLess] at h2
    | cons d ds =>
      simp only [strLess] at h1 h2
      split_ifs at h1 h2 with h3 h4
      have hcd : c = d := toNat_injective c d (by omega)
      rw [hcd, ih ds h1 h2]

theorem strLess_trans (a b c : Str) (h1 : strLess a b = true) (h2 : strLess b c = true) :
    strLess a c = true := by
  induction a generalizing b c with
  | nil =>
    cases b with
    | nil => simp [strLess] at h1
    | cons d ds => cases c <;> simp [strLess] at h2 ⊢
  | cons x xs ih =>
    cases b with
    | nil => simp [strLess] at h1
    | cons d ds =>
      cases c with
      | nil => simp [strLess] at h2
      | cons e es =>
        simp only [strLess] at h1 h2 ⊢
        split_ifs at h1 h2 ⊢ with g1 g2 g3 g4 g5 g6 g7 <;>
          first
          | rfl
          | omega
          | exact ih ds es h1 h2

/-- The order `strLess` is the lexicographic order of the code points. -/
theorem strLess_iff_lex (a b : Str) :
    strLess a b = true ↔ List.Lex (fun x y : Char => x.toNat < y.toNat) a b := by
  induction a generalizing b with
  | nil =>
    cases b with
    | nil => simp [strLess]
    | cons d ds => simp [strLess, List.Lex.nil]
  | cons c cs ih =>
    cases b with
    | nil => simp [strLess]
    | cons d ds =>
      simp only [strLess]
      constructor
      · intro h
        split_ifs at h with h1 h2
        · exact List.Lex.rel h1
        · have e : c = d := toNat_injective c d (by omega)
          subst e
          exact List.Lex.cons ((ih ds).mp h)
      · intro h
        cases h with
        | rel h1 => simp [h1]
        | cons h1 => simp [(ih _).mpr h1]

theorem strLe_total (a b : Str) : strLe a b ∨ strLe b a := by
  unfold strLe
  cases h : strLess b a with
  | false => exact Or.inl rfl
  | true => exact Or.inr (strLess_asymm b a h)

theorem strLe_trans (a b c : Str) (h1 : strLe a b) (h2 : strLe b c) : strLe a c := by
  unfold strLe at *
  cases h : strLess c a with
  | false => rfl
  | true =>
    cases hcb : strLess b c with
    | false =>
      have e : b = c := eq_of_not_strLess b c hcb h2
      rw [e, h] at h1
      exact h1
    | true =>
      have := strLess_trans b c a hcb h
      rw [this] at h1
      exact h1

theorem strLe_antisymm (a b : Str) (h1 : strLe a b) (h2 : strLe b a) : a = b :=
  eq_of_not_strLess a b h2 h1

/-! ## Lemmas on `sort.Strings` -/

theorem sortStrings_perm (l : List Str) : (sortStrings l).Perm l :=
  List.perm_insertionSort strLe l

theorem sortStrings_sorted (l : List Str) : List.Sorted strLe (sortStrings l) :=
  @List.sorted_insertionSort Str strLe _ ⟨strLe_total⟩ ⟨strLe_trans⟩ l

theorem mem_sortStrings (l : List Str) (d : Str) : d ∈ sortStrings l ↔ d ∈ l :=
  (sortStrings_perm l).mem_iff

theorem sortStrings_nodup (l : List Str) (h : l.Nodup) : (sortStrings l).Nodup :=
  (sortStrings_perm l).nodup_iff.mpr h

theorem sortStrings_eq_of_perm (l₁ l₂ : List Str) (h : l₁.Perm l₂) :
    sortStrings l₁ = sortStrings l₂ :=
  @List.eq_of_perm_of_sorted Str strLe ⟨strLe_antisymm⟩ _ _
    (((sortStrings_perm l₁).trans h).trans (sortStrings_perm l₂).symm)
    (sortStrings_sorted l₁) (sortStrings_sorted l₂)

theorem sortStrings_strict (l : List Str) (h : l.Nodup) :
    List.Pairwise (fun a b => strLess a b = true) (sortStrings l) := by
  have hs : List.Pairwise strLe (sortStrings l) := sortStrings_sorted l
  have hn : List.Pairwise (fun a b => a ≠ b) (sortStrings l) := sortStrings_nodup l h
  refine (hs.and hn).imp ?_
  intro a b hab
  cases hlt : strLess a b with
  | true => rfl
  | false => exact absurd (eq_of_not_strLess a b hlt hab.1) hab.2

/-! ## Lemmas on `extractDomains` -/

theorem foldl_append_singleton (l init : List Str) :
    l.foldl (fun extracted domain => extracted ++ [domain]) init = init ++ l := by
  induction l generalizing init with
  | nil => simp
  | cons d ds ih => simp [ih]

theorem setInsert_nodup (set : List Str) (line : Str) (h : set.Nodup) :
    (setInsert set line).Nodup := by
  unfold setInsert
  split_ifs with hm
  · exact h
  · exact List.Nodup.append h (List.nodup_singleton line) (by simpa using hm)

theorem mem_setInsert (set : List Str) (line d : Str) :
    d ∈ setInsert set line ↔ d ∈ set ∨ d = line := by
  unfold setInsert
  split_ifs with hm
  · constructor
    · exact Or.inl
    · rintro (h | rfl)
      · exact h
      · exact hm
  · simp

theorem keeps_iff (d : Str) : keeps d = true ↔ d ≠ [] ∧ ¬ ("#".toList <+: d) := by
  unfold keeps HasPrefix
  rw [Bool.and_eq_true, Bool.not_eq_true', ← Bool.not_eq_true, List.isPrefixOf_iff_prefix,
    decide_eq_true_eq, List.length_pos]

theorem collect_nodup (lines init : List Str) (h : init.Nodup) :
    (lines.foldl
      (fun set line =>
        let line := TrimSpace line
        if 0 < line.length && !HasPrefix line "#".toList then setInsert set line else set)
      init).Nodup := by
  induction lines generalizing init with
  | nil => exact h
  | cons l ls ih =>
    simp only [List.foldl_cons]
    apply ih
    split_ifs
    · exact setInsert_nodup _ _ h
    · exact h

theorem mem_collect (lines init : List Str) (d : Str) :
    d ∈ lines.foldl
      (fun set line =>
        let line := TrimSpace line
        if 0 < line.length && !HasPrefix line "#".toList then setInsert set line else set)
      init ↔
    d ∈ init ∨ (keeps d = true ∧ ∃ line ∈ lines, TrimSpace line = d) := by
  induction lines generalizing init with
  | nil => simp
  | cons l ls ih =>
    simp only [List.foldl_cons]
    rw [ih]
    by_cases hk : keeps (TrimSpace l) = true
    · have hk2 := hk
      unfold keeps at hk2
      simp only [hk2, if_true, mem_setInsert, List.mem_cons, exists_eq_or_imp]
      constructor
      · rintro ((h | rfl) | ⟨h1, h2⟩)
        · exact Or.inl h
        · exact Or.inr ⟨hk, Or.inl rfl⟩
        · exact Or.inr ⟨h1, Or.inr h2⟩
      · rintro (h | ⟨h1, h2 | h2⟩)
        · exact Or.inl (Or.inl h)
        · exact Or.inl (Or.inr h2.symm)
        · exact Or.inr ⟨h1, h2⟩
    · have hk2 := hk
      unfold keeps at hk2
      simp only [hk2, List.mem_cons, exists_eq_or_imp]
      constructor
      · rintro (h | ⟨h1, h2⟩)
        · exact Or.inl h
        · exact Or.inr ⟨h1, Or.inr h2⟩
      · rintro (h | ⟨h1, h2 | h2⟩)
        · exact Or.inl h
        · rw [h2] at hk
          exact absurd h1 hk
        · exact Or.inr ⟨h1, h2⟩

theorem domainsSet_nodup (s : Str) : (domainsSet s).Nodup :=
  collect_nodup _ _ List.nodup_nil

theorem mem_domainsSet (s d : Str) :
    d ∈ domainsSet s ↔ keeps d = true ∧ ∃ line ∈ Split s '\n', TrimSpace line = d := by
  unfold domainsSet
  rw [mem_collect]
  simp

theorem extractDomainsVia_eq (rangeOrder : List Str → List Str)
    (hrange : ∀ keys, (rangeOrder keys).Perm keys) (s : Str) :
    extractDomainsVia rangeOrder s = sortStrings (domainsSet s) := by
  unfold extractDomainsVia
  rw [foldl_append_singleton, List.nil_append]
  exact sortStrings_eq_of_perm _ _ (hrange _)

theorem extractDomains_eq (s : Str) : extractDomains s = sortStrings (domainsSet s) :=
  extractDomainsVia_eq id (fun _ => List.Perm.refl _) s

theorem mem_extractDomains (s d : Str) :
    d ∈ extractDomains s ↔
      (d ≠ [] ∧ ¬ ("#".toList <+: d)) ∧ ∃ line ∈ Split s '\n', TrimSpace line = d := by
  rw [extractDomains_eq, mem_sortStrings, mem_domainsSet, keeps_iff]

/-! ## Lemmas on `countBlockedWebsites` -/

theorem foldl_counter (p : Str → Bool) (lines : List Str) (init : Nat) :
    lines.foldl (fun counter line => if p line then counter + 1 else counter) init =
      init + (lines.filter p).length := by
  induction lines generalizing init with
  | nil => simp
  | cons l ls ih =>
    simp only [List.foldl_cons, List.filter_cons]
    rw [ih]
    split_ifs <;> simp; omega

theorem countBlockedWebsites_eq (c : Str) :
    countBlockedWebsites c =
      ((Split c '\n').filter (fun line => HasPrefix line blockIP)).length := by
  unfold countBlockedWebsites
  rw [foldl_counter]
  simp

/-! ## The claims on `extractDomains` and `countBlockedWebsites` -/

/-- C1: whatever order `range` visits the keys of the set in, the sequence
`extractDomains` returns is strictly ascending in lexicographic order (every
element is strictly less than all later ones, so than the next one), has no
duplicates, and is the same sequence for every visiting order. -/
theorem extractDomains_strictly_ascending (rangeOrder : List Str → List Str)
    (hrange : ∀ keys, (rangeOrder keys).Perm keys) (s : Str) :
    List.Pairwise (fun a b => strLess a b = true) (extractDomainsVia rangeOrder s) ∧
    List.Chain' (fun a b => strLess a b = true) (extractDomainsVia rangeOrder s) ∧
    (extractDomainsVia rangeOrder s).Nodup ∧
    extractDomainsVia rangeOrder s = extractDomains s := by
  have hp := sortStrings_strict (domainsSet s) (domainsSet_nodup s)
  rw [extractDomains_eq, extractDomainsVia_eq rangeOrder hrange]
  exact ⟨hp, List.Pairwise.chain' hp, sortStrings_nodup _ (domainsSet_nodup s), rfl⟩

/-- C1, at the input `"b\na\nb"` with the keys visited in reverse order of
insertion. -/
theorem extractDomains_strictly_ascending_witness :
    (∀ keys : List Str, (List.reverse keys).Perm keys) ∧
    List.Pairwise (fun a b => strLess a b = true)
      (extractDomainsVia List.reverse "b\na\nb".toList) ∧
    List.Chain' (fun a b => strLess a b = true)
      (extractDomainsVia List.reverse "b\na\nb".toList) ∧
    (extractDomainsVia List.reverse "b\na\nb".toList).Nodup ∧
    extractDomainsVia List.reverse "b\na\nb".toList = extractDomains "b\na\nb".toList :=
  ⟨fun keys => List.reverse_perm keys,
    extractDomains_strictly_ascending List.reverse (fun keys => List.reverse_perm keys)
      "b\na\nb".toList⟩

/-- C2: `d` is an element of `extractDomains s` if and only if `d` is not
empty, does not start with `#`, and is the trimmed form of one of the pieces
of `s` split on the newline; this for every order in which the keys of the set
are visited. -/
theorem mem_extractDomains_iff (rangeOrder : List Str → List Str)
    (hrange : ∀ keys, (rangeOrder keys).Perm keys) (s d : Str) :
    d ∈ extractDomainsVia rangeOrder s ↔
      (d ≠ [] ∧ ¬ ("#".toList <+: d) ∧ ∃ piece ∈ Split s '\n', TrimSpace piece = d) := by
  rw [extractDomainsVia_eq rangeOrder hrange, ← extractDomains_eq, mem_extractDomains, and_assoc]

/-- C2, at the input `" a \n#c"` and `d = "a"`, the keys visited in reverse
order. -/
theorem mem_extractDomains_iff_witness :
    (∀ keys : List Str, (List.reverse keys).Perm keys) ∧
    ("a".toList ∈ extractDomainsVia List.reverse " a \n#c".toList ↔
      ("a".toList ≠ [] ∧ ¬ ("#".toList <+: "a".toList) ∧
        ∃ piece ∈ Split " a \n#c".toList '\n', TrimSpace piece = "a".toList)) :=
  ⟨fun keys => List.reverse_perm keys,
    mem_extractDomains_iff List.reverse (fun keys => List.reverse_perm keys)
      " a \n#c".toList "a".toList⟩

/-- C3: `countBlockedWebsites c` is the number of the lines of `c` (its pieces
split on the newline) that have `0.0.0.0` as a prefix. -/
theorem countBlockedWebsites_counts_sentinel_lines (c : Str) :
    countBlockedWebsites c =
      ((Split c '\n').filter (fun line => decide ("0.0.0.0".toList <+: line))).length := by
  rw [countBlockedWebsites_eq]
  congr 1
  apply List.filter_congr
  intro line _
  unfold HasPrefix blockIP
  rw [Bool.eq_iff_iff, List.isPrefixOf_iff_prefix, decide_eq_true_eq]

/-! ## Lemmas on `buildFinalHostsFile` -/

theorem foldl_write (f : Str → Str) (l : List Str) (init : Str) :
    l.foldl (fun finalHosts domain => finalHosts ++ f domain) init =
      init ++ (l.map f).flatten := by
  induction l generalizing init with
  | nil => simp
  | cons d ds ih => simp [ih]

theorem buildFinalHostsFile_eq (userHosts : Option Str) (now : Str) (b w : List Str) :
    buildFinalHostsFile userHosts now b w =
      userPart userHosts ++ generatedHeader now ++ blockLines b := by
  unfold buildFinalHostsFile
  simp only []
  rw [foldl_write (fun domain => blockIP ++ " ".toList ++ domain ++ "\n".toList)]
  cases userHosts <;> simp [userPart, generatedHeader, blockLines]

theorem generatedHeader_eq (now : Str) :
    generatedHeader now =
      '\n' :: ((generatedTitle ++ now) ++ '\n' :: (dontWriteLine ++ '\n' :: '\n' :: [])) := by
  unfold generatedHeader generatedTitle
  have h : dontWriteBelow = dontWriteLine ++ '\n' :: '\n' :: [] := rfl
  rw [h]
  simp

theorem Split_blockLines (b : List Str) :
    Split (blockLines b) '\n' =
      b.flatMap (fun d => Split (blockIP ++ " ".toList ++ d) '\n') ++ [[]] := by
  induction b with
  | nil => simp [blockLines, Split]
  | cons d ds ih =>
    have h : blockLines (d :: ds) = (blockIP ++ " ".toList ++ d) ++ '\n' :: blockLines ds := by
      simp [blockLines]
    rw [h, Split_append_sep, ih]
    simp

theorem dontWriteLine_no_newline : '\n' ∉ dontWriteLine := by decide

theorem Split_buildFinalHostsFile (userHosts : Option Str) (now : Str) (b w : List Str) :
    Split (buildFinalHostsFile userHosts now b w) '\n' =
      Split (userPart userHosts) '\n' ++
        (Split (generatedTitle ++ now) '\n' ++
          (dontWriteLine :: [] ::
            (b.flatMap (fun d => Split (blockIP ++ " ".toList ++ d) '\n') ++ [[]]))) := by
  rw [buildFinalHostsFile_eq, generatedHeader_eq]
  have h : userPart userHosts ++
      '\n' :: ((generatedTitle ++ now) ++ '\n' :: (dontWriteLine ++ '\n' :: '\n' :: [])) ++
      blockLines b =
      userPart userHosts ++ '\n' :: ((generatedTitle ++ now) ++
        '\n' :: (dontWriteLine ++ '\n' :: ([] ++ '\n' :: blockLines b))) := by
    simp
  rw [h, Split_append_sep, Split_append_sep, Split_append_sep, Split_append_sep,
    Split_blockLines, Split_of_not_mem dontWriteLine '\n' dontWriteLine_no_newline]
  simp [Split]

theorem blockLines_eq (b : List Str) :
    blockLines b = (b.map (fun d => "0.0.0.0 ".toList ++ d ++ "\n".toList)).flatten := rfl

theorem generatedHeader_ne_nil (now : Str) : generatedHeader now ≠ [] := by
  rw [generatedHeader_eq]
  exact List.cons_ne_nil _ _

theorem mem_blockLines (b : List Str) (d : Str) (hd : d ∈ b) :
    ("0.0.0.0 ".toList ++ d ++ "\n".toList) <:+: blockLines b := by
  induction b with
  | nil => simp at hd
  | cons x xs ih =>
    have h : blockLines (x :: xs) = ("0.0.0.0 ".toList ++ x ++ "\n".toList) ++ blockLines xs := by
      simp [blockLines_eq]
    rw [h]
    rcases List.mem_cons.mp hd with rfl | hd
    · exact (List.prefix_append _ _).isInfix
    · exact (ih hd).trans (List.suffix_append _ _).isInfix

theorem Split_blockLine (d : Str) (hd : '\n' ∉ d) :
    Split (blockIP ++ " ".toList ++ d) '\n' = [blockIP ++ " ".toList ++ d] := by
  apply Split_of_not_mem
  intro h
  rcases List.mem_append.mp h with h | h
  · exact absurd h (by decide)
  · exact hd h

theorem flatMap_Split_blockLine (b : List Str) (hb : ∀ d ∈ b, '\n' ∉ d) :
    b.flatMap (fun d => Split (blockIP ++ " ".toList ++ d) '\n') =
      b.map (fun d => blockIP ++ " ".toList ++ d) := by
  induction b with
  | nil => rfl
  | cons x xs ih =>
    rw [List.flatMap_cons, List.map_cons, Split_blockLine x (hb x (List.mem_cons_self x xs)),
      ih (fun d hd => hb d (List.mem_cons_of_mem x hd))]
    rfl

theorem mem_Split_buildFinalHostsFile (userHosts : Option Str) (now : Str) (b w : List Str)
    (d : Str) (hd : d ∈ b) (hn : '\n' ∉ d) :
    ("0.0.0.0 ".toList ++ d) ∈ Split (buildFinalHostsFile userHosts now b w) '\n' := by
  rw [Split_buildFinalHostsFile]
  apply List.mem_append_right
  apply List.mem_append_right
  apply List.mem_cons_of_mem
  apply List.mem_cons_of_mem
  apply List.mem_append_left
  rw [List.mem_flatMap]
  exact ⟨d, hd, by rw [Split_blockLine d hn]; exact List.mem_singleton.mpr rfl⟩

theorem TrimSpace_sublist (line : Str) : (TrimSpace line).Sublist line :=
  (List.rdropWhile_prefix isSpace _).sublist.trans (List.dropWhile_sublist isSpace)

theorem newline_not_mem_of_mem_extractDomains (s d : Str) (hd : d ∈ extractDomains s) :
    '\n' ∉ d := by
  obtain ⟨_, line, hline, rfl⟩ := (mem_extractDomains s d).mp hd
  intro h
  exact not_mem_of_mem_Split s '\n' line hline ((TrimSpace_sublist line).subset h)

/-! ## The claims on `buildFinalHostsFile` -/

/-- C4: the output of `buildFinalHostsFile` is the prior content of the host
file (or, when it cannot be read, the placeholder line), then the two header
lines with the time, a blank line, and one line `0.0.0.0 d` for every `d` of
the blacklist, in the order of the blacklist. When the host file cannot be
read the function still returns a content, which starts with the placeholder
line. -/
theorem buildFinalHostsFile_layout (userHosts : Option Str) (ts : Str) (b w : List Str) :
    buildFinalHostsFile userHosts ts b w =
      (match userHosts with
        | some p => p
        | none => "# Original user hosts not found or couldn't be read\n".toList) ++
      "\n# Ad blocking hosts generated ".toList ++ ts ++ "\n".toList ++
      "# Don't write below this line. It will be lost if you run aeigo again.\n\n".toList ++
      (b.map (fun d => "0.0.0.0 ".toList ++ d ++ "\n".toList)).flatten ∧
    "# Original user hosts not found or couldn't be read\n".toList <+:
      buildFinalHostsFile none ts b w := by
  constructor
  · rw [buildFinalHostsFile_eq, blockLines_eq]
    cases userHosts <;>
      simp [userPart, generatedHeader, hostsNotFound, dontWriteBelow]
  · rw [buildFinalHostsFile_eq, List.append_assoc]
    exact List.prefix_append _ _

/-- C8: when the second run reads the file the first run wrote, its output is
the output of the first run followed by a second generated header and a second
copy of the `0.0.0.0 d` lines; the first output is a proper prefix of the
second, and the two are never equal. -/
theorem second_run_appends (userHosts : Option Str) (t1 t2 : Str) (b w1 w2 : List Str) :
    buildFinalHostsFile (some (buildFinalHostsFile userHosts t1 b w1)) t2 b w2 =
      buildFinalHostsFile userHosts t1 b w1 ++
      ("\n# Ad blocking hosts generated ".toList ++ t2 ++ "\n".toList ++
        "# Don't write below this line. It will be lost if you run aeigo again.\n\n".toList) ++
      (b.map (fun d => "0.0.0.0 ".toList ++ d ++ "\n".toList)).flatten ∧
    buildFinalHostsFile userHosts t1 b w1 <+:
      buildFinalHostsFile (some (buildFinalHostsFile userHosts t1 b w1)) t2 b w2 ∧
    (buildFinalHostsFile userHosts t1 b w1).length <
      (buildFinalHostsFile (some (buildFinalHostsFile userHosts t1 b w1)) t2 b w2).length ∧
    buildFinalHostsFile (some (buildFinalHostsFile userHosts t1 b w1)) t2 b w2 ≠
      buildFinalHostsFile userHosts t1 b w1 := by
  have h : buildFinalHostsFile (some (buildFinalHostsFile userHosts t1 b w1)) t2 b w2 =
      buildFinalHostsFile userHosts t1 b w1 ++ generatedHeader t2 ++ blockLines b := by
    rw [buildFinalHostsFile_eq (some _)]
    rfl
  have hlen : 0 < (generatedHeader t2).length := List.length_pos.mpr (generatedHeader_ne_nil t2)
  have hlt : (buildFinalHostsFile userHosts t1 b w1).length <
      (buildFinalHostsFile (some (buildFinalHostsFile userHosts t1 b w1)) t2 b w2).length := by
    rw [h, List.length_append, List.length_append]
    omega
  refine ⟨?_, ?_, hlt, ?_⟩
  · rw [h, blockLines_eq]
    rfl
  · rw [h, List.append_assoc]
    exact List.prefix_append _ _
  · intro e
    rw [e] at hlt
    exact Nat.lt_irrefl _ hlt

/-- C9: the output of `buildFinalHostsFile` does not depend on the whitelist;
a domain that is in the blacklist and in the whitelist still has its text
`0.0.0.0 d` and a newline in the output, as a line of the output when `d` has
no newline, which is so for the extracted domains of any two blobs. -/
theorem whitelist_not_applied (userHosts : Option Str) (ts : Str) (b w1 w2 : List Str) :
    buildFinalHostsFile userHosts ts b w1 = buildFinalHostsFile userHosts ts b w2 ∧
    (∀ d, d ∈ b → d ∈ w1 →
      ("0.0.0.0 ".toList ++ d ++ "\n".toList) <:+: buildFinalHostsFile userHosts ts b w1) ∧
    (∀ d, d ∈ b → d ∈ w1 → '\n' ∉ d →
      ("0.0.0.0 ".toList ++ d) ∈ Split (buildFinalHostsFile userHosts ts b w1) '\n') ∧
    (∀ blackBlob whiteBlob d,
      d ∈ extractDomains blackBlob → d ∈ extractDomains whiteBlob →
      ("0.0.0.0 ".toList ++ d) ∈
        Split (buildFinalHostsFile userHosts ts (extractDomains blackBlob)
          (extractDomains whiteBlob)) '\n') := by
  refine ⟨rfl, ?_, ?_, ?_⟩
  · intro d hb _
    rw [buildFinalHostsFile_eq]
    exact (mem_blockLines b d hb).trans (List.suffix_append _ _).isInfix
  · intro d hb _ hn
    exact mem_Split_buildFinalHostsFile userHosts ts b w1 d hb hn
  · intro blackBlob whiteBlob d hb _
    exact mem_Split_buildFinalHostsFile userHosts ts _ _ d hb
      (newline_not_mem_of_mem_extractDomains blackBlob d hb)

/-! ## Counting the lines of the final content -/

theorem HasPrefix_blockLine (d : Str) : HasPrefix (blockIP ++ " ".toList ++ d) blockIP = true := by
  unfold HasPrefix
  rw [List.isPrefixOf_iff_prefix, List.append_assoc]
  exact List.prefix_append _ _

theorem HasPrefix_generatedTitle (now : Str) :
    HasPrefix (generatedTitle ++ now) blockIP = false := rfl

theorem filter_blockLines (b : List Str) :
    (b.map (fun d => blockIP ++ " ".toList ++ d)).filter (fun line => HasPrefix line blockIP) =
      b.map (fun d => blockIP ++ " ".toList ++ d) := by
  rw [List.filter_eq_self]
  intro line hline
  obtain ⟨d, _, rfl⟩ := List.mem_map.mp hline
  exact HasPrefix_blockLine d

theorem filter_userPart (userHosts : Option Str)
    (hprior : ∀ p, userHosts = some p →
      ∀ line ∈ Split p '\n', ¬ ("0.0.0.0".toList <+: line)) :
    (Split (userPart userHosts) '\n').filter (fun line => HasPrefix line blockIP) = [] := by
  cases userHosts with
  | none => decide
  | some p =>
    rw [List.filter_eq_nil_iff]
    intro line hline
    have := hprior p rfl line hline
    unfold HasPrefix blockIP
    rwa [List.isPrefixOf_iff_prefix]

theorem countBlockedWebsites_buildFinalHostsFile (userHosts : Option Str) (ts : Str)
    (b w : List Str) (hts : '\n' ∉ ts)
    (hprior : ∀ p, userHosts = some p →
      ∀ line ∈ Split p '\n', ¬ ("0.0.0.0".toList <+: line))
    (hb : ∀ d ∈ b, '\n' ∉ d) :
    countBlockedWebsites (buildFinalHostsFile userHosts ts b w) = b.length := by
  have htitle : '\n' ∉ generatedTitle ++ ts := by
    intro h
    rcases List.mem_append.mp h with h | h
    · exact absurd h (by decide)
    · exact hts h
  rw [countBlockedWebsites_eq, Split_buildFinalHostsFile, flatMap_Split_blockLine b hb,
    Split_of_not_mem _ '\n' htitle, List.filter_append, filter_userPart userHosts hprior,
    List.nil_append, List.singleton_append, List.filter_cons, HasPrefix_generatedTitle,
    List.filter_cons, List.filter_cons, List.filter_append, filter_blockLines]
  have h1 : HasPrefix dontWriteLine blockIP = false := rfl
  have h2 : HasPrefix [] blockIP = false := rfl
  simp [h1, h2]

/-- C6: when the time has no newline and no line of the prior content of the
host file starts with `0.0.0.0` (the case of a file that cannot be read
included), the count reported for the content built from the extracted
domains of a blob is the number of extracted domains: 2 for the blob
`"ads.example.com\n#comment\n\nbad.example.com\n"`, whose extracted domains are
`ads.example.com` and `bad.example.com`, and 0 for the empty blob. -/
theorem end_to_end_count (userHosts : Option Str) (ts : Str) (blob whiteBlob : Str)
    (hts : '\n' ∉ ts)
    (hprior : ∀ p, userHosts = some p →
      ∀ line ∈ Split p '\n', ¬ ("0.0.0.0".toList <+: line)) :
    countBlockedWebsites
        (buildFinalHostsFile userHosts ts (extractDomains blob) (extractDomains whiteBlob)) =
      (extractDomains blob).length ∧
    (extractDomains "ads.example.com\n#comment\n\nbad.example.com\n".toList =
        ["ads.example.com".toList, "bad.example.com".toList] ∧
      countBlockedWebsites
        (buildFinalHostsFile userHosts ts
          (extractDomains "ads.example.com\n#comment\n\nbad.example.com\n".toList)
          (extractDomains whiteBlob)) = 2) ∧
    countBlockedWebsites
        (buildFinalHostsFile userHosts ts (extractDomains []) (extractDomains whiteBlob)) = 0 := by
  have key : ∀ s : Str, countBlockedWebsites
      (buildFinalHostsFile userHosts ts (extractDomains s) (extractDomains whiteBlob)) =
      (extractDomains s).length := fun s =>
    countBlockedWebsites_buildFinalHostsFile userHosts ts _ _ hts hprior
      (fun d hd => newline_not_mem_of_mem_extractDomains s d hd)
  have hex : extractDomains "ads.example.com\n#comment\n\nbad.example.com\n".toList =
      ["ads.example.com".toList, "bad.example.com".toList] := by decide
  refine ⟨key blob, ⟨hex, ?_⟩, ?_⟩
  · rw [key, hex]
    rfl
  · rw [key]
    rfl

/-- C6, at a host file with one line, the time `2024-01-01T00:00:00Z` and the
blob `"b.com\na.com\nb.com\n"`. -/
theorem end_to_end_count_witness :
    ('\n' ∉ "2024-01-01T00:00:00Z".toList ∧
      ∀ p, some "127.0.0.1 localhost\n".toList = some p →
        ∀ line ∈ Split p '\n', ¬ ("0.0.0.0".toList <+: line)) ∧
    countBlockedWebsites
        (buildFinalHostsFile (some "127.0.0.1 localhost\n".toList) "2024-01-01T00:00:00Z".toList
          (extractDomains "b.com\na.com\nb.com\n".toList) (extractDomains [])) =
      (extractDomains "b.com\na.com\nb.com\n".toList).length :=
  ⟨⟨by decide, fun p hp => by
      cases hp
      decide⟩,
    (end_to_end_count (some "127.0.0.1 localhost\n".toList) "2024-01-01T00:00:00Z".toList
      "b.com\na.com\nb.com\n".toList [] (by decide) (fun p hp => by
        cases hp
        decide)).1⟩

/-! ## The lines `0.0.0.0 d` of the final content -/

theorem blockLine_ne_of_head (d rest : Str) (c : Char) (hc : ¬ '0' = c) :
    ¬ (c :: rest = blockIP ++ " ".toList ++ d) := by
  intro h
  have h0 : some c = some '0' := congrArg List.head? h
  exact hc (Option.some.inj h0).symm

theorem blockLine_not_mem_hostsNotFound (d : Str) :
    (blockIP ++ " ".toList ++ d) ∉ Split hostsNotFound '\n' := by
  have h : Split hostsNotFound '\n' =
      ["# Original user hosts not found or couldn't be read".toList, []] := by decide
  rw [h]
  intro hm
  rcases List.mem_cons.mp hm with e | hm
  · exact blockLine_ne_of_head d _ '#' (by decide) e.symm
  · rcases List.mem_cons.mp hm with e | hm
    · exact absurd (congrArg List.length e) (by simp [blockIP])
    · simp at hm

theorem filter_eq_cons_of_ne (x a : Str) (l : List Str) (h : ¬ a = x) :
    (a :: l).filter (fun line => decide (line = x)) =
      l.filter (fun line => decide (line = x)) :=
  List.filter_cons_of_neg (fun hd => h (of_decide_eq_true hd))

theorem filter_eq_cons_self (x : Str) (l : List Str) :
    (x :: l).filter (fun line => decide (line = x)) =
      x :: l.filter (fun line => decide (line = x)) :=
  List.filter_cons_of_pos (decide_eq_true rfl)

theorem filter_blockLine (b : List Str) (d : Str) (hd : d ∉ b) :
    (b.map (fun x => blockIP ++ " ".toList ++ x)).filter
      (fun line => decide (line = blockIP ++ " ".toList ++ d)) = [] := by
  rw [List.filter_eq_nil_iff]
  intro line hline h
  obtain ⟨x, hx, rfl⟩ := List.mem_map.mp hline
  have e : x = d := List.append_cancel_left (of_decide_eq_true h)
  exact hd (e ▸ hx)

theorem count_blockLine (b : List Str) (d : Str) (hnodup : b.Nodup) (hd : d ∈ b) :
    ((b.map (fun x => blockIP ++ " ".toList ++ x)).filter
      (fun line => decide (line = blockIP ++ " ".toList ++ d))).length = 1 := by
  induction b with
  | nil => simp at hd
  | cons x xs ih =>
    have hx : x ∉ xs := (List.nodup_cons.mp hnodup).1
    have hxs : xs.Nodup := (List.nodup_cons.mp hnodup).2
    rw [List.map_cons]
    by_cases e : x = d
    · subst e
      rw [filter_eq_cons_self, filter_blockLine xs x hx]
      rfl
    · have hne : ¬ (blockIP ++ " ".toList ++ x = blockIP ++ " ".toList ++ d) :=
        fun h => e (List.append_cancel_left h)
      rw [filter_eq_cons_of_ne _ _ _ hne]
      rcases List.mem_cons.mp hd with h | h
      · exact absurd h.symm e
      · exact ih hxs h

theorem count_blockLine_buildFinalHostsFile (userHosts : Option Str) (ts : Str)
    (b w : List Str) (d : Str) (hts : '\n' ∉ ts) (hb : ∀ x ∈ b, '\n' ∉ x)
    (hprior : ∀ p, userHosts = some p → (blockIP ++ " ".toList ++ d) ∉ Split p '\n') :
    ((Split (buildFinalHostsFile userHosts ts b w) '\n').filter
      (fun line => decide (line = blockIP ++ " ".toList ++ d))).length =
    ((b.map (fun x => blockIP ++ " ".toList ++ x)).filter
      (fun line => decide (line = blockIP ++ " ".toList ++ d))).length := by
  have htitle : '\n' ∉ generatedTitle ++ ts := by
    intro h
    rcases List.mem_append.mp h with h | h
    · exact absurd h (by decide)
    · exact hts h
  have hA : (Split (userPart userHosts) '\n').filter
      (fun line => decide (line = blockIP ++ " ".toList ++ d)) = [] := by
    rw [List.filter_eq_nil_iff]
    intro line hline h
    have e : line = blockIP ++ " ".toList ++ d := of_decide_eq_true h
    rw [e] at hline
    cases userHosts with
    | none => exact blockLine_not_mem_hostsNotFound d hline
    | some p => exact hprior p rfl hline
  have hB : ¬ (generatedTitle ++ ts = blockIP ++ " ".toList ++ d) :=
    blockLine_ne_of_head d _ '#' (by decide)
  have hD : ¬ (dontWriteLine = blockIP ++ " ".toList ++ d) :=
    blockLine_ne_of_head d _ '#' (by decide)
  have hE : ¬ (([] : Str) = blockIP ++ " ".toList ++ d) := by
    intro h
    exact absurd (congrArg List.length h) (by simp [blockIP])
  rw [Split_buildFinalHostsFile, flatMap_Split_blockLine b hb, Split_of_not_mem _ '\n' htitle,
    List.filter_append, hA, List.nil_append, List.singleton_append,
    filter_eq_cons_of_ne _ _ _ hB, filter_eq_cons_of_ne _ _ _ hD, filter_eq_cons_of_ne _ _ _ hE,
    List.filter_append, filter_eq_cons_of_ne _ _ _ hE, List.filter_nil, List.append_nil]

/-- C5, corrected: when the time has no newline, the blacklist has no
duplicates, no domain of the blacklist contains a newline and no line of the
prior content of the host file is already `0.0.0.0 d`, then for each `d` of
the blacklist exactly one line of the output of `buildFinalHostsFile` is
`0.0.0.0`, a space and `d`. -/
theorem blacklist_domain_exactly_once (userHosts : Option Str) (ts : Str) (b w : List Str)
    (d : Str) (hts : '\n' ∉ ts) (hnodup : b.Nodup) (hb : ∀ x ∈ b, '\n' ∉ x)
    (hprior : ∀ p, userHosts = some p → ("0.0.0.0 ".toList ++ d) ∉ Split p '\n')
    (hd : d ∈ b) :
    ((Split (buildFinalHostsFile userHosts ts b w) '\n').filter
      (fun line => decide (line = "0.0.0.0 ".toList ++ d))).length = 1 := by
  have h := count_blockLine_buildFinalHostsFile userHosts ts b w d hts hb hprior
  rw [count_blockLine b d hnodup hd] at h
  exact h

/-- C5, corrected, at a host file with one line and the blacklist
`a.com`, `b.com`. -/
theorem blacklist_domain_exactly_once_witness :
    ('\n' ∉ "2024-01-01T00:00:00Z".toList ∧
      ["a.com".toList, "b.com".toList].Nodup ∧
      (∀ x ∈ ["a.com".toList, "b.com".toList], '\n' ∉ x) ∧
      (∀ p, some "127.0.0.1 localhost\n".toList = some p →
        ("0.0.0.0 ".toList ++ "b.com".toList) ∉ Split p '\n') ∧
      "b.com".toList ∈ ["a.com".toList, "b.com".toList]) ∧
    ((Split (buildFinalHostsFile (some "127.0.0.1 localhost\n".toList)
      "2024-01-01T00:00:00Z".toList ["a.com".toList, "b.com".toList] []) '\n').filter
        (fun line => decide (line = "0.0.0.0 ".toList ++ "b.com".toList))).length = 1 :=
  ⟨⟨by decide, by decide, by decide, fun p hp => by
      cases hp
      decide, by decide⟩,
    blacklist_domain_exactly_once (some "127.0.0.1 localhost\n".toList)
      "2024-01-01T00:00:00Z".toList ["a.com".toList, "b.com".toList] [] "b.com".toList
      (by decide) (by decide) (by decide)
      (fun p hp => by
        cases hp
        decide)
      (by decide)⟩

/-- C5 as stated fails: with the line `0.0.0.0 a.com` already in the host
file, the output for the blacklist `a.com` has two lines `0.0.0.0 a.com`; and
for the blacklist `a.com`, `a.com` it has two such lines as well. -/
theorem blacklist_domain_twice :
    ((Split (buildFinalHostsFile (some "127.0.0.1 localhost\n0.0.0.0 a.com\n".toList)
      "2024-01-01T00:00:00Z".toList ["a.com".toList] []) '\n').filter
        (fun line => decide (line = "0.0.0.0 ".toList ++ "a.com".toList))).length = 2 ∧
    ((Split (buildFinalHostsFile none
      "2024-01-01T00:00:00Z".toList ["a.com".toList, "a.com".toList] []) '\n').filter
        (fun line => decide (line = "0.0.0.0 ".toList ++ "a.com".toList))).length = 2 := by
  constructor <;> decide

/-! ## Merging the sources -/

theorem downloadAndMergeSources_eq (downloadFile : Str → Str) (sources : List Str) :
    downloadAndMergeSources downloadFile sources = (sources.map downloadFile).flatten := by
  unfold downloadAndMergeSources
  rw [foldl_write downloadFile sources []]
  rfl

theorem extractDomains_congr (s t : Str)
    (h : ∀ line, line ∈ Split s '\n' ↔ line ∈ Split t '\n') :
    extractDomains s = extractDomains t := by
  rw [extractDomains_eq, extractDomains_eq]
  apply sortStrings_eq_of_perm
  rw [List.perm_ext_iff_of_nodup (domainsSet_nodup s) (domainsSet_nodup t)]
  intro d
  rw [mem_domainsSet, mem_domainsSet]
  constructor
  · rintro ⟨hk, line, hline, e⟩
    exact ⟨hk, line, (h line).mp hline, e⟩
  · rintro ⟨hk, line, hline, e⟩
    exact ⟨hk, line, (h line).mpr hline, e⟩

theorem mem_Split_flatten (bodies : List Str)
    (hterm : ∀ body ∈ bodies, body = [] ∨ ∃ x, body = x ++ ['\n']) (line : Str) :
    line ∈ Split bodies.flatten '\n' ↔
      line = [] ∨ ∃ x, (x ++ ['\n']) ∈ bodies ∧ line ∈ Split x '\n' := by
  induction bodies with
  | nil => simp [Split]
  | cons body rest ih =>
    have ih := ih (fun b hb => hterm b (List.mem_cons_of_mem body hb))
    rcases hterm body (List.mem_cons_self body rest) with e | ⟨x, e⟩
    · subst e
      rw [List.flatten_cons, List.nil_append, ih]
      constructor
      · rintro (h | ⟨x, hx, hl⟩)
        · exact Or.inl h
        · exact Or.inr ⟨x, List.mem_cons_of_mem _ hx, hl⟩
      · rintro (h | ⟨x, hx, hl⟩)
        · exact Or.inl h
        · rcases List.mem_cons.mp hx with hx | hx
          · exact absurd (congrArg List.length hx) (by simp)
          · exact Or.inr ⟨x, hx, hl⟩
    · subst e
      have hf : ((x ++ ['\n']) :: rest).flatten = x ++ '\n' :: rest.flatten := by simp
      rw [hf, Split_append_sep, List.mem_append, ih]
      constructor
      · rintro (h | h | ⟨y, hy, hl⟩)
        · exact Or.inr ⟨x, List.mem_cons_self _ _, h⟩
        · exact Or.inl h
        · exact Or.inr ⟨y, List.mem_cons_of_mem _ hy, hl⟩
      · rintro (h | ⟨y, hy, hl⟩)
        · exact Or.inr (Or.inl h)
        · rcases List.mem_cons.mp hy with hy | hy
          · have e : y = x := List.append_cancel_right hy
            exact Or.inl (e ▸ hl)
          · exact Or.inr (Or.inr ⟨y, hy, hl⟩)

/-- When every body is empty or ends with a newline, the extracted domains do
not depend on the order of the sources. -/
theorem extractDomains_merge_perm_of_terminated (downloadFile : Str → Str)
    (sources sources' : List Str) (hperm : sources.Perm sources')
    (hterm : ∀ u ∈ sources, downloadFile u = [] ∨ ∃ x, downloadFile u = x ++ ['\n']) :
    extractDomains (downloadAndMergeSources downloadFile sources) =
      extractDomains (downloadAndMergeSources downloadFile sources') := by
  have hterm' : ∀ u ∈ sources', downloadFile u = [] ∨ ∃ x, downloadFile u = x ++ ['\n'] :=
    fun u hu => hterm u (hperm.mem_iff.mpr hu)
  have hb : ∀ body ∈ sources.map downloadFile, body = [] ∨ ∃ x, body = x ++ ['\n'] := by
    intro body hbody
    obtain ⟨u, hu, rfl⟩ := List.mem_map.mp hbody
    exact hterm u hu
  have hb' : ∀ body ∈ sources'.map downloadFile, body = [] ∨ ∃ x, body = x ++ ['\n'] := by
    intro body hbody
    obtain ⟨u, hu, rfl⟩ := List.mem_map.mp hbody
    exact hterm' u hu
  apply extractDomains_congr
  intro line
  rw [downloadAndMergeSources_eq, downloadAndMergeSources_eq, mem_Split_flatten _ hb,
    mem_Split_flatten _ hb']
  have hm : ∀ body, body ∈ sources.map downloadFile ↔ body ∈ sources'.map downloadFile :=
    fun body => (hperm.map downloadFile).mem_iff
  constructor
  · rintro (h | ⟨x, hx, hl⟩)
    · exact Or.inl h
    · exact Or.inr ⟨x, (hm _).mp hx, hl⟩
  · rintro (h | ⟨x, hx, hl⟩)
    · exact Or.inl h
    · exact Or.inr ⟨x, (hm _).mpr hx, hl⟩

/-! ## The claims on the merged sources and on raw lines -/

/-- C7 fails on the code: two sources whose bodies `a.com` and `b.com` do not
end with a newline are merged into `a.comb.com` in one order and into
`b.coma.com` in the other, and the extracted domains differ (neither holds
`a.com` or `b.com`). -/
theorem merge_joins_lines_of_adjacent_sources :
    downloadAndMergeSources
        (fun url => if url = "https://one/list".toList then "a.com".toList else "b.com".toList)
        ["https://one/list".toList, "https://two/list".toList] = "a.comb.com".toList ∧
    extractDomains (downloadAndMergeSources
        (fun url => if url = "https://one/list".toList then "a.com".toList else "b.com".toList)
        ["https://one/list".toList, "https://two/list".toList]) = ["a.comb.com".toList] ∧
    extractDomains (downloadAndMergeSources
        (fun url => if url = "https://one/list".toList then "a.com".toList else "b.com".toList)
        ["https://two/list".toList, "https://one/list".toList]) = ["b.coma.com".toList] ∧
    List.Perm ["https://two/list".toList, "https://one/list".toList]
      ["https://one/list".toList, "https://two/list".toList] := by
  refine ⟨by decide, by decide, by decide, List.Perm.swap _ _ _⟩

/-- C10 as stated fails: the line ` a.com` of the input ` a.com` is not blank
and does not start with `#`, yet it is not an element of the extracted
domains; the element `a.com` is not a line of the input. -/
theorem raw_line_not_verbatim :
    " a.com".toList ∈ Split " a.com".toList '\n' ∧
    TrimSpace " a.com".toList ≠ [] ∧
    ¬ ("#".toList <+: " a.com".toList) ∧
    " a.com".toList ∉ extractDomains " a.com".toList ∧
    "a.com".toList ∈ extractDomains " a.com".toList ∧
    "a.com".toList ∉ Split " a.com".toList '\n' := by
  decide

/-- C10, corrected: every line of `s` whose trimmed form is not empty and does
not start with `#` has its trimmed form as an element of `extractDomains s`;
every element of `extractDomains s` is the trimmed form of a line of `s`; and
a line that is not empty, does not start with `#` and has no white space to
trim is itself, character for character, an element. -/
theorem extractDomains_elements_are_trimmed_lines (s : Str) :
    (∀ line ∈ Split s '\n', TrimSpace line ≠ [] → ¬ ("#".toList <+: TrimSpace line) →
      TrimSpace line ∈ extractDomains s) ∧
    (∀ d ∈ extractDomains s, ∃ line ∈ Split s '\n', TrimSpace line = d) ∧
    (∀ line ∈ Split s '\n',
      line ≠ [] → ¬ ("#".toList <+: line) → TrimSpace line = line →
      line ∈ extractDomains s) := by
  refine ⟨?_, ?_, ?_⟩
  · intro line hline h1 h2
    exact (mem_extractDomains s _).mpr ⟨⟨h1, h2⟩, line, hline, rfl⟩
  · intro d hd
    exact ((mem_extractDomains s d).mp hd).2
  · intro line hline h1 h2 h3
    exact (mem_extractDomains s _).mpr ⟨⟨h1, h2⟩, line, hline, h3⟩

/-- C10, corrected, at the input `" a.com\nb.com\n"`: the trimmed form of the
first line and the second line itself are elements. -/
theorem extractDomains_elements_are_trimmed_lines_witness :
    " a.com".toList ∈ Split " a.com\nb.com\n".toList '\n' ∧
    TrimSpace " a.com".toList = "a.com".toList ∧
    "a.com".toList ∈ extractDomains " a.com\nb.com\n".toList ∧
    "b.com".toList ∈ Split " a.com\nb.com\n".toList '\n' ∧
    "b.com".toList ∈ extractDomains " a.com\nb.com\n".toList :=
  ⟨by decide, by decide,
    (extractDomains_elements_are_trimmed_lines " a.com\nb.com\n".toList).1
      " a.com".toList (by decide) (by decide) (by decide),
    by decide,
    (extractDomains_elements_are_trimmed_lines " a.com\nb.com\n".toList).2.2
      "b.com".toList (by decide) (by decide) (by decide) (by decide)⟩

end Aeigo
